import Mathlib

/-!
# Verification of the primes-web core (src/primes-web.js)

Shallow embedding of the primes-web library: the mod-30 wheel bit array
(`BitArray`), the low-set sieve (`#generateLowSet`), the parameter
preparation helper (`#prepareParameters`), and the three primality
predicates (`isPrimeTrialDivision`, `isPrimeSieveEratosthenes`,
`isPrimeBucketSieve`) together with the dispatched `isPrime`.

JS numbers that hold integer values are embedded as `Int` (the library
validates against `Number.MAX_SAFE_INTEGER`, so all relevant values are
exact integers).  JS `%` is truncated remainder, embedded as `Int.tmod`;
`Math.floor(x / 30)` on nonnegative integers is `Nat` division;
`Math.floor(Math.sqrt (x))` is `Nat.sqrt` (exact at every argument the
claims touch, including `Number.MAX_SAFE_INTEGER`).  `Uint8Array` cell
assignment applies ToUint8, embedded as `% 256`; reading a `Uint8Array`
out of bounds yields `undefined`, which `&` coerces to `0`, embedded as
`List.getD _ _ 0`; writing out of bounds is ignored, matching `List.set`.
-/

/-- `Number.MAX_SAFE_INTEGER`, the largest exactly representable integer. -/
def maxSafeInteger : Nat := 9007199254740991

/-- The 30-entry wheel mask table from the `BitArray` constructor:
residues mod 30 coprime to 30 get a distinct single bit, all others 0. -/
def maskTable : List Nat :=
  [0, 1, 0, 0, 0, 0, 0, 2, 0, 0, 0, 4, 0, 8, 0, 0, 0, 16, 0, 32, 0, 0, 0, 64, 0, 0, 0, 0, 0, 128]

/-- State of a `primes_web.BitArray`: the validated size and the byte
array (`Uint8Array`, one `Nat < 256` per cell). -/
structure BitArray where
  size : Nat
  data : List Nat
deriving DecidableEq

/-- Error message of the `BitArray` constructor (apostrophes around the
parameter name dropped). -/
def invalidSizeMsg : String :=
  "For parameter size argument must be between 1 and max safe integer"

/-- The `BitArray` constructor: rejects a size that is not a positive
safe integer, then allocates `Math.floor(size / 30) + 1` zero bytes. -/
def BitArray.make (size : Int) : Except String BitArray :=
  if ¬ (size.natAbs ≤ maxSafeInteger) ∨ size < 1 then
    .error invalidSizeMsg
  else
    .ok ⟨size.toNat, List.replicate (size.toNat / 30 + 1) 0⟩

/-- Core of `BitArray.set` after the (skippable) checks: look up the mask
for `number % 30`; if nonzero, OR it into byte `Math.floor(number / 30)`.
ToUint8 on store is `% 256`; an out-of-bounds store is ignored
(`List.set` out of range is the identity, like a `Uint8Array`). -/
def BitArray.setCore (b : BitArray) (number : Nat) : BitArray :=
  let mask := maskTable.getD (number % 30) 0
  if mask ≠ 0 then
    let newByte := (b.data.getD (number / 30) 0 ||| mask) % 256
    { b with data := b.data.set (number / 30) newByte }
  else b

/-- Core of `BitArray.get` after the (skippable) checks: if the mask for
`number % 30` is nonzero return the stored bit, else report 1.  An
out-of-bounds read yields `undefined`, coerced to 0 by `&`, so
`List.getD _ _ 0` matches. -/
def BitArray.getCore (b : BitArray) (number : Nat) : Nat :=
  let mask := maskTable.getD (number % 30) 0
  if mask ≠ 0 then b.data.getD (number / 30) 0 &&& mask
  else 1

/-- `BitArray.set(number, skip_checks)`: without `skip_checks`, an even,
negative or too-large number is silently ignored.  A negative number on
the fast path is also a no-op in the source (the mask lookup yields
`undefined`), matching `Int.toNat` clamping to residue 0 whose mask is 0. -/
def BitArray.set (b : BitArray) (number : Int) (skip_checks : Bool) : BitArray :=
  if skip_checks = false ∧ (number.tmod 2 = 0 ∨ number < 0 ∨ number > (b.size : Int)) then b
  else b.setCore number.toNat

/-- `BitArray.get(number, skip_checks)`: without `skip_checks`, an even
number, a number below 7 or a number above `size` reports 1 (composite).
A negative number on the fast path reports 1 in the source (mask lookup
yields `undefined`), matching `Int.toNat` clamping to residue 0. -/
def BitArray.get (b : BitArray) (number : Int) (skip_checks : Bool) : Nat :=
  if skip_checks = false ∧ (number.tmod 2 = 0 ∨ number < 7 ∨ number > (b.size : Int)) then 1
  else b.getCore number.toNat

/-!
## `#prepareParameters`

The source iterates the parameter array with `for (let parameter in
parameters)`.  In JS, `for..in` over an array visits its *index keys*,
which are strings ("0", "1", ...), not the stored numbers.  The embedding
keeps that behaviour: the loop variable ranges over `JsVal.str` values.
-/

/-- A JS value as seen by `typeof` checks: a number or a string. -/
inductive JsVal where
  | num : Int → JsVal
  | str : String → JsVal
deriving DecidableEq

/-- `typeof` for the embedded JS values. -/
def JsVal.typeof : JsVal → String
  | .num _ => "number"
  | .str _ => "string"

/-- `Number.isSafeInteger`: true only for a number of magnitude at most
`Number.MAX_SAFE_INTEGER` (a string is never a safe integer). -/
def JsVal.isSafeInteger : JsVal → Bool
  | .num n => n.natAbs ≤ maxSafeInteger
  | .str _ => false

/-- The keys visited by `for..in` over a JS array: index strings. -/
def forInKeys (parameters : List Int) : List JsVal :=
  (List.range parameters.length).map (fun i => JsVal.str (toString i))

/-- Error message produced by the `typeof` check in `#prepareParameters`
when the loop variable is an index string. -/
def typeErrMsg : String :=
  "Argument of type string given, but type of number expected"

/-- The validation loop body of `#prepareParameters`, run over the
`for..in` keys. -/
def prepareParametersLoop : List JsVal → Except String Unit
  | [] => .ok ()
  | parameter :: rest =>
    if parameter.typeof ≠ "number" then
      .error ("Argument of type " ++ parameter.typeof ++ " given, but type of number expected")
    else if ¬ parameter.isSafeInteger then
      .error "Argument with not safe integer given"
    else prepareParametersLoop rest

/-- `#prepareParameters`: validate via the `for..in` loop, then swap the
first two entries if out of order. -/
def prepareParameters (parameters : List Int) : Except String (List Int) := do
  let _ ← prepareParametersLoop (forInKeys parameters)
  match parameters with
  | a :: b :: rest => pure (if a > b then b :: a :: rest else a :: b :: rest)
  | l => pure l

/-!
## The sieve (`#generateLowSet`)

`#generateLowSet(range)` first replaces `range` by
`Math.floor(Math.sqrt(range))`; `sieveCore` below is the remainder of the
body, so `generateLowSet range = sieveCore (jsSqrt range)`.  The
`Date.now` timing and the `console.log` report are side effects outside
the functional contract and are not modelled.

The source's upward `for` loops are embedded as structural recursions on
an explicit iteration budget (the budget passed at the single entry point
of each loop is at least the number of iterations the loop performs, so
the budget-exhausted branch coincides with the loop-exit branch; this is
proved where the loop lemmas need it).  This keeps every definition
kernel-computable.
-/

/-- Count-up computation of `Math.floor(Math.sqrt(n))`: the largest `k`
with `k * k ≤ n`.  Structurally recursive so concrete runs reduce;
`jsSqrt_eq_sqrt` below identifies it with `Nat.sqrt`.  (JS `Math.sqrt` is
the correctly rounded double square root; `Math.floor` of it agrees with
the integer square root at every argument these claims evaluate,
including `Number.MAX_SAFE_INTEGER`.) -/
def jsSqrtGo (n : Nat) : Nat → Nat → Nat
  | k, 0 => k
  | k, fuel + 1 => if (k + 1) * (k + 1) ≤ n then jsSqrtGo n (k + 1) fuel else k

/-- `Math.floor(Math.sqrt(n))` for a nonnegative integer `n`. -/
def jsSqrt (n : Nat) : Nat := jsSqrtGo n 0 n

/-- The inner marking loop of the sieve: starting at `oddMultiple`, mark
every `stepMultiple`-th number up to `range`. -/
def markMultiplesGo (stepMultiple range : Nat) : BitArray → Nat → Nat → BitArray
  | b, _, 0 => b
  | b, oddMultiple, fuel + 1 =>
    if oddMultiple ≤ range then
      markMultiplesGo stepMultiple range (b.set (oddMultiple : Int) true)
        (oddMultiple + stepMultiple) fuel
    else b

/-- Entry point of the marking loop; the budget `range + 1 - oddMultiple`
dominates the iteration count because `stepMultiple = candidate * 2 ≥ 1`
at every call site. -/
def markMultiples (b : BitArray) (stepMultiple oddMultiple range : Nat) : BitArray :=
  markMultiplesGo stepMultiple range b oddMultiple (range + 1 - oddMultiple)

/-- The first sieve loop: odd candidates up to `range_sqrt`; an unmarked
candidate is appended to the low set and its odd multiples are marked.
Returns the accumulated list, the bit array, and the final value of the
loop variable (the second loop continues from it). -/
def sieveLoop1Go (range_sqrt range : Nat) :
    List Nat → BitArray → Nat → Nat → List Nat × BitArray × Nat
  | acc, b, candidate, 0 => (acc, b, candidate)
  | acc, b, candidate, fuel + 1 =>
    if candidate ≤ range_sqrt then
      if b.get (candidate : Int) true = 0 then
        sieveLoop1Go range_sqrt range (acc ++ [candidate])
          (markMultiples b (candidate * 2) (candidate + candidate * 2) range)
          (candidate + 2) fuel
      else
        sieveLoop1Go range_sqrt range acc b (candidate + 2) fuel
    else (acc, b, candidate)

/-- Entry point of the first sieve loop (step 2, so the budget
dominates the iteration count). -/
def sieveLoop1 (acc : List Nat) (b : BitArray) (candidate range_sqrt range : Nat) :
    List Nat × BitArray × Nat :=
  sieveLoop1Go range_sqrt range acc b candidate (range_sqrt + 1 - candidate)

/-- The second sieve loop: remaining odd candidates up to `range`; every
unmarked one is appended. -/
def sieveLoop2Go (range : Nat) : List Nat → BitArray → Nat → Nat → List Nat
  | acc, _, _, 0 => acc
  | acc, b, candidate, fuel + 1 =>
    if candidate ≤ range then
      sieveLoop2Go range (if b.get (candidate : Int) true = 0 then acc ++ [candidate] else acc)
        b (candidate + 2) fuel
    else acc

/-- Entry point of the second sieve loop. -/
def sieveLoop2 (acc : List Nat) (b : BitArray) (candidate range : Nat) : List Nat :=
  sieveLoop2Go range acc b candidate (range + 1 - candidate)

/-- Body of `#generateLowSet` after the initial
`range = Math.floor(Math.sqrt(range))` update: pre-add 2, 3, 5, allocate
the wheel bit array (whose constructor can throw), run both loops. -/
def sieveCore (range : Nat) : Except String (List Nat) := do
  let pre := (if 2 ≤ range then [2] else []) ++ (if 3 ≤ range then [3] else [])
      ++ (if 5 ≤ range then [5] else [])
  let sieveField ← BitArray.make (range : Int)
  let range_sqrt := jsSqrt range
  let r := sieveLoop1 pre sieveField 7 range_sqrt range
  pure (sieveLoop2 r.1 r.2.1 r.2.2 range)

/-- `#generateLowSet`: shrink the range to `Math.floor(Math.sqrt(range))`
and run the sieve body. -/
def generateLowSet (range : Nat) : Except String (List Nat) :=
  sieveCore (jsSqrt range)

/-!
## The `primes_web` instance state and the three predicates
-/

/-- The fields of a `primes_web` instance that the predicates read. -/
structure PrimesWeb where
  low_set : List Nat
  low_set_last : Nat
  low_set_ready : Bool

/-- The state right after the constructor, before the asynchronous
`#generateLowSet` task has completed. -/
def initialState : PrimesWeb := ⟨[], 0, false⟩

/-- The state once the background `#generateLowSet(Number.MAX_SAFE_INTEGER)`
task has completed: the low set is populated, `low_set_last` is its last
element, `low_set_ready` is true.  (If the task rejected, the fields
would keep their initial values.) -/
def builtState : PrimesWeb :=
  match generateLowSet maxSafeInteger with
  | .ok l => ⟨l, l.getLastD 0, true⟩
  | .error _ => initialState

/-- The membership loop of `isPrimeBucketSieve`.  The source iterates
`for (candidate in this.#low_set)`, so `candidate` is an index string and
`number == candidate` loosely compares the number against the *index*.
The loop is dead code (parameter preparation throws first) but is
embedded faithfully: it returns true iff `number` equals some index. -/
def bucketMembershipLoop (number : Int) (indices : List Nat) : Bool :=
  match indices with
  | [] => false
  | i :: rest => if number = (i : Int) then true else bucketMembershipLoop number rest

/-- The trial-division loop of `isPrimeBucketSieve`, again over `for..in`
index strings: `number % candidate` coerces the index string to its
number.  `number % 0` is `NaN` in JS and `NaN == 0` is false, so index 0
never triggers the early return. -/
def bucketDivisionLoop (number : Int) (indices : List Nat) : Bool :=
  match indices with
  | [] => true
  | i :: rest =>
    if i ≠ 0 ∧ number.tmod (i : Int) = 0 then false
    else bucketDivisionLoop number rest

/-- `isPrimeBucketSieve`: prepare the parameter (which throws, see
`prepareParameters`), check readiness, reject small/even numbers, then
either scan the low set for membership or trial-divide — both scans over
`for..in` index keys, faithfully embedded. -/
def isPrimeBucketSieve (st : PrimesWeb) (number0 : Int) : Except String Bool := do
  let ps ← prepareParameters [number0]
  let number := ps.headI
  if st.low_set_ready = false then
    throw "Low set of prime numbers is not ready"
  else if number < 2 ∨ (number ≠ 2 ∧ number.tmod 2 = 0) then
    pure false
  else if number ≤ (st.low_set_last : Int) then
    pure (bucketMembershipLoop number (List.range st.low_set.length))
  else
    pure (bucketDivisionLoop number (List.range st.low_set.length))

/-- `isPrime`: the dispatched predicate just calls `isPrimeBucketSieve`. -/
def isPrime (st : PrimesWeb) (number : Int) : Except String Bool :=
  isPrimeBucketSieve st number

/-- The odd-divisor search loop of `isPrimeTrialDivision`. -/
def trialLoopGo (number number_sqrt : Nat) : Nat → Nat → Bool
  | _, 0 => true
  | candidate, fuel + 1 =>
    if candidate ≤ number_sqrt then
      if number % candidate = 0 then false
      else trialLoopGo number number_sqrt (candidate + 2) fuel
    else true

/-- Entry point of the trial-division loop. -/
def trialLoop (number : Nat) (candidate number_sqrt : Nat) : Bool :=
  trialLoopGo number number_sqrt candidate (number_sqrt + 1 - candidate)

/-- `isPrimeTrialDivision`: prepare the parameter (which throws), reject
numbers below 2 and even numbers other than 2, then search for an odd
divisor up to `Math.floor(Math.sqrt(number))`. -/
def isPrimeTrialDivision (number0 : Int) : Except String Bool := do
  let ps ← prepareParameters [number0]
  let number := ps.headI
  if number < 2 ∨ (number ≠ 2 ∧ number.tmod 2 = 0) then
    pure false
  else
    pure (trialLoop number.toNat 3 (jsSqrt number.toNat))

/-- The multiple-clearing loop of the naive Sieve of Eratosthenes: clear
every `next`-th entry from `multiple` up to `number`.  Every call site
passes `next ≥ 2`, so the budget dominates the iteration count. -/
def eratosClearGo (next number : Nat) : List Bool → Nat → Nat → List Bool
  | field, _, 0 => field
  | field, multiple, fuel + 1 =>
    if multiple ≤ number then
      eratosClearGo next number (field.set multiple false) (multiple + next) fuel
    else field

/-- Entry point of the clearing loop. -/
def eratosClear (field : List Bool) (multiple next number : Nat) : List Bool :=
  eratosClearGo next number field multiple (number + 1 - multiple)

/-- The outer marking loop of the naive Sieve of Eratosthenes: for each
`next` up to `number_sqrt`, if still true, clear all its multiples. -/
def eratosMarkGo (number_sqrt number : Nat) : List Bool → Nat → Nat → List Bool
  | field, _, 0 => field
  | field, next, fuel + 1 =>
    if next ≤ number_sqrt then
      if field.getD next false then
        eratosMarkGo number_sqrt number (eratosClear field (next * 2) next number)
          (next + 1) fuel
      else eratosMarkGo number_sqrt number field (next + 1) fuel
    else field

/-- Entry point of the outer marking loop. -/
def eratosMark (field : List Bool) (next number_sqrt number : Nat) : List Bool :=
  eratosMarkGo number_sqrt number field next (number_sqrt + 1 - next)

/-- `isPrimeSieveEratosthenes`: prepare the parameter (which throws),
reject numbers below 2, build a boolean sieve field of size `number + 1`,
mark, and read off the answer. -/
def isPrimeSieveEratosthenes (number0 : Int) : Except String Bool := do
  let ps ← prepareParameters [number0]
  let number := ps.headI
  if number < 2 then
    pure false
  else
    let n := number.toNat
    let sieveField := ((List.replicate (n + 1) true).set 0 false).set 1 false
    pure ((eratosMark sieveField 2 (jsSqrt n) n).getD n false)

/-- The low set actually built by the process:
`#generateLowSet(Number.MAX_SAFE_INTEGER)` (empty if the background task
rejected, which `lowSetList_spec` below rules out). -/
def lowSetList : List Nat := (generateLowSet maxSafeInteger).toOption.getD []

/-- `low_set_last` of the built process state: the last element of the
low set. -/
def lowSetLast : Nat := lowSetList.getLastD 0

/-- The list produced by a sieve run with the given effective bound
(an errored run collapses to the empty list; the runs examined by the
claims all succeed, witnessed by equality with a nonempty list). -/
def sieveResult (range : Nat) : List Nat :=
  match sieveCore range with
  | .ok l => l
  | .error _ => []

/-- The state of a `BitArray` after a sequence of public (checked)
`set` calls. -/
def applySets (b : BitArray) (ms : List Int) : BitArray :=
  ms.foldl (fun a m => a.set m false) b

/-!
## Claim theorems: the parameter-preparation bug and its consequences
-/

/-- C9: for every argument, each of `isPrimeTrialDivision`,
`isPrimeSieveEratosthenes` and `isPrimeBucketSieve` throws before any
primality computation: `#prepareParameters` iterates the parameter array
with `for..in`, so the loop variable is the index string "0" and the
`typeof` check rejects every non-empty argument list. -/
theorem prepareParameters_rejects_every_call (number : Int) (st : PrimesWeb) :
    isPrimeTrialDivision number = .error typeErrMsg ∧
    isPrimeSieveEratosthenes number = .error typeErrMsg ∧
    isPrimeBucketSieve st number = .error typeErrMsg :=
  ⟨rfl, rfl, rfl⟩

/-- C1 (code bug): the three algorithms never return a boolean at all —
at input 0 (as at every input) each throws the `#prepareParameters` type
error, contradicting their own documentation, so they cannot agree as
booleans on [0, 10000]. -/
theorem check_algorithms_all_throw_at_zero :
    isPrimeTrialDivision 0 = .error typeErrMsg ∧
    isPrimeSieveEratosthenes 0 = .error typeErrMsg ∧
    isPrimeBucketSieve builtState 0 = .error typeErrMsg :=
  ⟨rfl, rfl, rfl⟩

/-- C2 (code bug): with the low set ready, `isPrime(1)` does not return
false — it throws the `#prepareParameters` type error (and the same
happens at 2, 97 and 100). -/
theorem isPrime_one_throws :
    isPrime builtState 1 = .error typeErrMsg ∧
    isPrime builtState 2 = .error typeErrMsg ∧
    isPrime builtState 97 = .error typeErrMsg ∧
    isPrime builtState 100 = .error typeErrMsg :=
  ⟨rfl, rfl, rfl, rfl⟩

/-- C7 (code bug): a call to the accelerated predicate made before the
background task completes does not fail with the NotReady error — the
`#prepareParameters` type error is thrown first, so the readiness check
is unreachable. -/
theorem bucket_before_ready_throws_type_error :
    isPrimeBucketSieve initialState 7 = .error typeErrMsg ∧
    typeErrMsg ≠ "Low set of prime numbers is not ready" :=
  ⟨rfl, by decide⟩

/-- C4: the sieve with effective bound 30 produces exactly
[2, 3, 5, 7, 11, 13, 17, 19, 23, 29], and the bound-49 run contains 47
and contains neither 48 nor 49 (the perfect square 49 = 7 * 7 is marked). -/
theorem sieve_bound_30_and_49 :
    sieveResult 30 = [2, 3, 5, 7, 11, 13, 17, 19, 23, 29] ∧
    47 ∈ sieveResult 49 ∧ 48 ∉ sieveResult 49 ∧ 49 ∉ sieveResult 49 := by
  decide

/-- C8 (counterexample): at size 1 the constructor allocates
`Math.floor(1 / 30) + 1 = 1` byte, not the `⌈1 / 30⌉ + 1 = 2` bytes the
claim demands. -/
theorem bitarray_alloc_is_floor_not_ceil :
    BitArray.make 1 = .ok ⟨1, [0]⟩ ∧
    ([0] : List Nat).length = 1 ∧ (1 + 29) / 30 + 1 = 2 :=
  ⟨rfl, rfl, rfl⟩

/-- C10 (counterexample): for size 31 and n = 37 (coprime residue,
greater than size) the fast-path read does not index past the end of the
two-byte storage (37 / 30 = 1 is in bounds), even though the fast read
returns 0 while the checked read returns 1. -/
theorem fast_get_in_bounds_disagreement :
    BitArray.make 31 = .ok ⟨31, [0, 0]⟩ ∧
    (31 : Int) < 37 ∧ Int.gcd 37 30 = 1 ∧
    (37 / 30 : Nat) < ([0, 0] : List Nat).length ∧
    (BitArray.mk 31 [0, 0]).get 37 true = 0 ∧
    (BitArray.mk 31 [0, 0]).get 37 false = 1 := by
  exact ⟨rfl, by decide, by decide, by decide, by decide, by decide⟩

/-!
## Infrastructure: byte, mask and list lemmas for the wheel bit array
-/

set_option maxRecDepth 10000 in
set_option maxHeartbeats 1000000 in
/-- Byte values stay below 256 after OR-ing a single mask bit in, and the
OR-ed bit reads back nonzero. -/
theorem byteOr_facts : ∀ v < 256, ∀ j < 8, (v ||| 2 ^ j) < 256 ∧ (v ||| 2 ^ j) &&& 2 ^ j ≠ 0 := by
  decide

set_option maxRecDepth 10000 in
set_option maxHeartbeats 1600000 in
/-- OR-ing one mask bit into a byte does not change any other bit. -/
theorem byteOr_other :
    ∀ v < 256, ∀ i < 8, ∀ j < 8, i ≠ j → (v ||| 2 ^ j) &&& 2 ^ i = v &&& 2 ^ i := by
  decide

/-- The wheel mask is nonzero exactly at the residues coprime to 30. -/
theorem mask_coprime : ∀ r < 30, (maskTable.getD r 0 ≠ 0 ↔ Nat.gcd r 30 = 1) := by decide

/-- Distinct residues never share a nonzero mask bit. -/
theorem mask_inj :
    ∀ r < 30, ∀ s < 30, maskTable.getD r 0 ≠ 0 → maskTable.getD r 0 = maskTable.getD s 0 →
      r = s := by
  decide

/-- Every nonzero wheel mask is a single bit below 2 ^ 8. -/
theorem mask_exp :
    ∀ r < 30, maskTable.getD r 0 = 0 ∨ ∃ j, j < 8 ∧ maskTable.getD r 0 = 2 ^ j := by decide

/-- An odd residue with zero mask is divisible by 3 or by 5. -/
theorem mask_zero_odd_div :
    ∀ r < 30, r % 2 = 1 → maskTable.getD r 0 = 0 → 3 ∣ r ∨ 5 ∣ r := by decide

/-- The primes below 7 are exactly 2, 3 and 5. -/
theorem small_primes : ∀ p < 7, Nat.Prime p → p ∈ [2, 3, 5] := by decide

/-- `List.getD` after `List.set` at a different index is unchanged. -/
theorem getD_set_ne (l : List Nat) (i j x : Nat) (h : i ≠ j) :
    (l.set i x).getD j 0 = l.getD j 0 := by
  simp [List.getD_eq_getElem?_getD, List.getElem?_set_ne h]

/-- `List.getD` after `List.set` at the same in-bounds index reads the
stored value. -/
theorem getD_set_self (l : List Nat) (i x : Nat) (h : i < l.length) :
    (l.set i x).getD i 0 = x := by
  simp [List.getD_eq_getElem?_getD, List.getElem?_set_self, h]

/-- Reading a zero-filled list yields zero at every index. -/
theorem getD_replicate (n i : Nat) : (List.replicate n (0 : Nat)).getD i 0 = 0 := by
  rw [List.getD_eq_getElem?_getD, List.getElem?_replicate]
  split <;> rfl

/-- A coprimality test of `k` against 30 factors through `k % 30`. -/
theorem gcd_mod30 (k : Nat) : Nat.gcd (k % 30) 30 = Nat.gcd k 30 := by
  rw [← Nat.gcd_rec, Nat.gcd_comm]

/-- A number coprime to 30 is odd. -/
theorem odd_of_coprime30 (k : Nat) (h : Nat.gcd k 30 = 1) : k % 2 = 1 := by
  rcases Nat.even_or_odd k with he | ho
  · exfalso
    have h2 : 2 ∣ Nat.gcd k 30 := Nat.dvd_gcd he.two_dvd (by norm_num)
    rw [h] at h2; omega
  · exact Nat.odd_iff.mp ho

/-- `setCore` at a residue with zero mask is a no-op. -/
theorem setCore_of_mask_zero (b : BitArray) (m : Nat)
    (hm : maskTable.getD (m % 30) 0 = 0) : b.setCore m = b := by
  simp only [BitArray.setCore]
  rw [if_neg (not_not_intro hm)]

/-- `getCore` at a residue with zero mask always reports 1. -/
theorem getCore_of_mask_zero (b : BitArray) (n : Nat)
    (hn : maskTable.getD (n % 30) 0 = 0) : b.getCore n = 1 := by
  simp only [BitArray.getCore]
  rw [if_neg (not_not_intro hn)]

/-- `setCore` keeps the size field. -/
theorem setCore_size (b : BitArray) (m : Nat) : (b.setCore m).size = b.size := by
  simp only [BitArray.setCore]
  split <;> rfl

/-- `setCore` keeps the byte-array length. -/
theorem setCore_length (b : BitArray) (m : Nat) :
    (b.setCore m).data.length = b.data.length := by
  simp only [BitArray.setCore]
  split <;> simp

/-- `setCore` keeps every byte below 256 (the stored value is reduced
mod 256). -/
theorem setCore_bytes (b : BitArray) (m : Nat) (hb : ∀ v ∈ b.data, v < 256) :
    ∀ v ∈ (b.setCore m).data, v < 256 := by
  simp only [BitArray.setCore]
  split
  · intro v hv
    rcases List.mem_or_eq_of_mem_set hv with h | h
    · exact hb v h
    · omega
  · exact hb

/-- The byte holding an in-bounds index is itself below 256. -/
theorem getD_lt_256 (b : BitArray) (i : Nat) (hb : ∀ v ∈ b.data, v < 256) :
    b.data.getD i 0 < 256 := by
  by_cases h : i < b.data.length
  · apply hb
    rw [List.getD_eq_getElem?_getD, List.getElem?_eq_getElem h]
    exact List.getElem_mem h
  · rw [List.getD_eq_getElem?_getD, List.getElem?_eq_none (by omega)]
    simp

/-- Round trip through the core operations: after `setCore n`, reading
`n` (nonzero mask, in-bounds byte) reports marked. -/
theorem getCore_setCore_self (b : BitArray) (n : Nat)
    (hb : ∀ v ∈ b.data, v < 256)
    (hmask : maskTable.getD (n % 30) 0 ≠ 0)
    (hlen : n / 30 < b.data.length) :
    (b.setCore n).getCore n ≠ 0 := by
  obtain ⟨j, hj, hjeq⟩ := (mask_exp (n % 30) (Nat.mod_lt _ (by norm_num))).resolve_left hmask
  have hv : b.data.getD (n / 30) 0 < 256 := getD_lt_256 b _ hb
  have hfacts := byteOr_facts (b.data.getD (n / 30) 0) hv j hj
  simp only [BitArray.setCore, BitArray.getCore, if_pos hmask]
  rw [getD_set_self _ _ _ hlen, hjeq, Nat.mod_eq_of_lt hfacts.1]
  exact hfacts.2

/-- `setCore m` does not change what `getCore` reports at any `n ≠ m`. -/
theorem getCore_setCore_ne (b : BitArray) (m n : Nat) (hmn : m ≠ n)
    (hb : ∀ v ∈ b.data, v < 256) :
    (b.setCore m).getCore n = b.getCore n := by
  by_cases hm : maskTable.getD (m % 30) 0 = 0
  · rw [setCore_of_mask_zero b m hm]
  by_cases hn : maskTable.getD (n % 30) 0 = 0
  · rw [getCore_of_mask_zero _ n hn, getCore_of_mask_zero b n hn]
  obtain ⟨jm, hjm, hjmeq⟩ := (mask_exp (m % 30) (Nat.mod_lt _ (by norm_num))).resolve_left hm
  obtain ⟨jn, hjn, hjneq⟩ := (mask_exp (n % 30) (Nat.mod_lt _ (by norm_num))).resolve_left hn
  by_cases hdiv : m / 30 = n / 30
  · have hres : m % 30 ≠ n % 30 := by
      intro hcontra
      exact hmn (by omega)
    have hmasks : maskTable.getD (m % 30) 0 ≠ maskTable.getD (n % 30) 0 := by
      intro hcontra
      exact hres (mask_inj (m % 30) (Nat.mod_lt _ (by norm_num)) (n % 30)
        (Nat.mod_lt _ (by norm_num)) hm hcontra)
    have hjs : jm ≠ jn := by
      intro hcontra
      apply hmasks
      rw [hjmeq, hjneq, hcontra]
    by_cases hlen : n / 30 < b.data.length
    · have hv : b.data.getD (n / 30) 0 < 256 := getD_lt_256 b _ hb
      simp only [BitArray.setCore, BitArray.getCore, if_pos hm, if_pos hn]
      rw [hdiv, getD_set_self _ _ _ hlen, hjmeq, hjneq, ← hdiv, hdiv,
        Nat.mod_eq_of_lt (byteOr_facts _ hv jm hjm).1]
      exact byteOr_other _ hv jn hjn jm hjm (fun hc => hjs hc.symm)
    · simp only [BitArray.setCore, BitArray.getCore, if_pos hm, if_pos hn]
      rw [hdiv, List.set_eq_of_length_le (by omega)]
  · simp only [BitArray.setCore, BitArray.getCore, if_pos hm, if_pos hn]
    rw [getD_set_ne _ _ _ _ hdiv]

/-- Reading a freshly allocated bit array: 0 at nonzero-mask positions,
1 elsewhere. -/
theorem getCore_fresh (size k n : Nat) :
    (BitArray.mk size (List.replicate k 0)).getCore n =
      if maskTable.getD (n % 30) 0 = 0 then 1 else 0 := by
  by_cases h : maskTable.getD (n % 30) 0 = 0
  · simp [BitArray.getCore, h]
  · simp only [BitArray.getCore, if_pos h, if_neg h]
    rw [getD_replicate]
    simp [Nat.zero_and]

/-- JS `%` on nonnegative integers is `Nat` remainder. -/
theorem tmod_coe (a b : Nat) : (a : Int).tmod (b : Int) = ((a % b : Nat) : Int) := rfl

/-- The fast-path (`skip_checks = true`) read is the core read. -/
theorem get_skip_coe (b : BitArray) (n : Nat) : b.get (n : Int) true = b.getCore n := by
  simp [BitArray.get]

/-- The fast-path (`skip_checks = true`) write is the core write. -/
theorem set_skip_coe (b : BitArray) (n : Nat) : b.set (n : Int) true = b.setCore n := by
  simp [BitArray.set]

/-- A checked write either hits the silent-ignore filter or reduces to
the core write on an odd in-range number. -/
theorem set_checked_cases (b : BitArray) (m : Int) :
    b.set m false = b ∨
    (m.tmod 2 ≠ 0 ∧ 0 ≤ m ∧ m ≤ (b.size : Int) ∧ b.set m false = b.setCore m.toNat) := by
  by_cases h : m.tmod 2 = 0 ∨ m < 0 ∨ m > (b.size : Int)
  · left
    simp only [BitArray.set]
    rw [if_pos ⟨by trivial, h⟩]
  · right
    push_neg at h
    refine ⟨h.1, by omega, by omega, ?_⟩
    simp only [BitArray.set]
    rw [if_neg (fun hc => absurd hc.2 (by push_neg; exact h))]

/-- A checked read outside the domain reports 1. -/
theorem get_checked_out (b : BitArray) (m : Int)
    (h : m.tmod 2 = 0 ∨ m < 7 ∨ m > (b.size : Int)) : b.get m false = 1 := by
  simp only [BitArray.get]
  rw [if_pos ⟨by trivial, h⟩]

/-- A checked read inside the domain is the core read. -/
theorem get_checked_in (b : BitArray) (m : Int)
    (h : ¬ (m.tmod 2 = 0 ∨ m < 7 ∨ m > (b.size : Int))) :
    b.get m false = b.getCore m.toNat := by
  simp only [BitArray.get]
  rw [if_neg (fun hc => h hc.2)]

/-- A sequence of checked writes keeps the size, the byte-array length
and the byte bound. -/
theorem applySets_invariants (ms : List Int) (b : BitArray)
    (hb : ∀ v ∈ b.data, v < 256) :
    (applySets b ms).size = b.size ∧
    (applySets b ms).data.length = b.data.length ∧
    ∀ v ∈ (applySets b ms).data, v < 256 := by
  induction ms generalizing b with
  | nil => exact ⟨rfl, rfl, hb⟩
  | cons m ms ih =>
    rw [show applySets b (m :: ms) = applySets (b.set m false) ms from rfl]
    rcases set_checked_cases b m with h | ⟨_, _, _, h⟩
    · rw [h]
      exact ih b hb
    · rw [h]
      obtain ⟨h1, h2, h3⟩ := ih _ (setCore_bytes b _ hb)
      exact ⟨by rw [h1, setCore_size], by rw [h2, setCore_length], h3⟩

/-- A sequence of checked writes leaves the core read at `k` unchanged
when every written number is either different from `k` or above the
array size (and hence silently ignored). -/
theorem applySets_getCore_eq (ms : List Int) (b : BitArray) (k : Nat)
    (hb : ∀ v ∈ b.data, v < 256)
    (hms : ∀ m ∈ ms, m ≠ (k : Int) ∨ (b.size : Int) < m) :
    (applySets b ms).getCore k = b.getCore k := by
  induction ms generalizing b with
  | nil => rfl
  | cons m ms ih =>
    rw [show applySets b (m :: ms) = applySets (b.set m false) ms from rfl]
    rcases set_checked_cases b m with h | ⟨hodd, hpos, hle, h⟩
    · rw [h]
      exact ih b hb (fun x hx => hms x (List.mem_cons_of_mem m hx))
    · rw [h]
      have hne : m.toNat ≠ k := by
        rcases hms m (List.mem_cons_self m ms) with hx | hx
        · intro hc
          apply hx
          rw [← hc, Int.toNat_of_nonneg hpos]
        · omega
      have hrec := ih (b.setCore m.toNat) (setCore_bytes b _ hb) ?_
      · rw [hrec, getCore_setCore_ne b _ k hne hb]
      · intro x hx
        rw [setCore_size]
        exact hms x (List.mem_cons_of_mem m hx)

/-- C6: WheelBitSet round trip.  For a bit array constructed with `size`
and mutated by any sequence of public `set` calls: (1) after `set n`, a
read of `n` in `[7, size]` coprime to 30 reports composite (nonzero);
(2) if `n` was never passed to `set`, the read reports prime-candidate
(0); (3) any out-of-domain `n` (even, below 7, or above `size`) reports
composite (1) regardless of prior `set` calls. -/
theorem wheel_round_trip (size : Int) (b0 : BitArray) (ms : List Int) (n : Int)
    (hmk : BitArray.make size = .ok b0) :
    (7 ≤ n → n ≤ size → n.gcd 30 = 1 →
      ((applySets b0 ms).set n false).get n false ≠ 0) ∧
    (7 ≤ n → n ≤ size → n.gcd 30 = 1 → (∀ m ∈ ms, m ≠ n) →
      (applySets b0 ms).get n false = 0) ∧
    (n.tmod 2 = 0 ∨ n < 7 ∨ n > size → (applySets b0 ms).get n false = 1) := by
  have hcond : ¬ (¬ ((size : Int).natAbs ≤ maxSafeInteger) ∨ size < 1) := by
    intro h
    simp only [BitArray.make, if_pos h] at hmk
    exact Except.noConfusion hmk
  have hb0 : b0 = ⟨size.toNat, List.replicate (size.toNat / 30 + 1) 0⟩ := by
    simp only [BitArray.make, if_neg hcond] at hmk
    exact (Except.ok.inj hmk).symm
  push_neg at hcond
  have hpos : 1 ≤ size := hcond.2
  have hbytes0 : ∀ v ∈ b0.data, v < 256 := by
    rw [hb0]
    intro v hv
    have := List.eq_of_mem_replicate hv
    omega
  obtain ⟨hAsz, hAlen, hAbytes⟩ := applySets_invariants ms b0 hbytes0
  have hsz : b0.size = size.toNat := by rw [hb0]
  have hszc : ((applySets b0 ms).size : Int) = size := by
    rw [hAsz, hsz, Int.toNat_of_nonneg (by omega)]
  refine ⟨?_, ?_, ?_⟩
  · intro h7 hle hgcd
    have hk : n = ((n.toNat : Nat) : Int) := (Int.toNat_of_nonneg (by omega)).symm
    set k := n.toNat with hkdef
    have hgcdk : Nat.gcd k 30 = 1 := by
      rw [hk] at hgcd
      simpa [Int.gcd] using hgcd
    have hmask : maskTable.getD (k % 30) 0 ≠ 0 :=
      (mask_coprime (k % 30) (Nat.mod_lt _ (by norm_num))).mpr (by rw [gcd_mod30]; exact hgcdk)
    have hodd : k % 2 = 1 := odd_of_coprime30 k hgcdk
    have htmod : ¬ n.tmod 2 = 0 := by
      rw [hk]
      have h2 : ((k : Int)).tmod (2 : Int) = ((k % 2 : Nat) : Int) := tmod_coe k 2
      rw [h2, hodd]
      decide
    have hkle : k ≤ size.toNat := by omega
    have hset : (applySets b0 ms).set n false = (applySets b0 ms).setCore k := by
      simp only [BitArray.set]
      rw [if_neg (fun hc => by
        rcases hc.2 with hc2 | hc2 | hc2
        · exact htmod hc2
        · omega
        · rw [hszc] at hc2; omega)]
    rw [hset]
    have hget : ((applySets b0 ms).setCore k).get n false
        = ((applySets b0 ms).setCore k).getCore k := by
      apply get_checked_in
      intro hc
      rcases hc with hc | hc | hc
      · exact htmod hc
      · omega
      · rw [setCore_size, hszc] at hc; omega
    rw [hget]
    apply getCore_setCore_self _ _ hAbytes hmask
    rw [hAlen, hb0]
    simp only [List.length_replicate]
    have : k / 30 ≤ size.toNat / 30 := Nat.div_le_div_right hkle
    omega
  · intro h7 hle hgcd hnever
    have hk : n = ((n.toNat : Nat) : Int) := (Int.toNat_of_nonneg (by omega)).symm
    set k := n.toNat with hkdef
    have hgcdk : Nat.gcd k 30 = 1 := by
      rw [hk] at hgcd
      simpa [Int.gcd] using hgcd
    have hmask : maskTable.getD (k % 30) 0 ≠ 0 :=
      (mask_coprime (k % 30) (Nat.mod_lt _ (by norm_num))).mpr (by rw [gcd_mod30]; exact hgcdk)
    have hodd : k % 2 = 1 := odd_of_coprime30 k hgcdk
    have htmod : ¬ n.tmod 2 = 0 := by
      rw [hk]
      have h2 : ((k : Int)).tmod (2 : Int) = ((k % 2 : Nat) : Int) := tmod_coe k 2
      rw [h2, hodd]
      decide
    have hget : (applySets b0 ms).get n false = (applySets b0 ms).getCore k := by
      apply get_checked_in
      intro hc
      rcases hc with hc | hc | hc
      · exact htmod hc
      · omega
      · rw [hszc] at hc; omega
    rw [hget]
    rw [applySets_getCore_eq ms b0 k hbytes0 (fun m hm => Or.inl (by
      intro hc
      exact hnever m hm (by rw [hc, ← hk])))]
    rw [hb0, getCore_fresh]
    rw [if_neg hmask]
  · intro h
    apply get_checked_out
    rw [hszc]
    exact h

/-- C6 witness: size 31, prior writes [9], reads at 11 (set then read;
never-set read) and at 8 (out of domain). -/
theorem wheel_round_trip_witness :
    (BitArray.make 31 = .ok ⟨31, [0, 0]⟩ ∧ (7 : Int) ≤ 11 ∧ (11 : Int) ≤ 31 ∧
      Int.gcd 11 30 = 1 ∧ (∀ m ∈ ([9] : List Int), m ≠ 11) ∧
      ((8 : Int).tmod 2 = 0 ∨ (8 : Int) < 7 ∨ (8 : Int) > 31)) ∧
    ((applySets ⟨31, [0, 0]⟩ [9]).set 11 false).get 11 false ≠ 0 ∧
    (applySets ⟨31, [0, 0]⟩ [9]).get 11 false = 0 ∧
    (applySets ⟨31, [0, 0]⟩ [9]).get 8 false = 1 :=
  ⟨⟨rfl, by decide, by decide, by decide, by decide, by decide⟩,
    (wheel_round_trip 31 ⟨31, [0, 0]⟩ [9] 11 rfl).1 (by decide) (by decide) (by decide),
    (wheel_round_trip 31 ⟨31, [0, 0]⟩ [9] 11 rfl).2.1 (by decide) (by decide) (by decide)
      (by decide),
    (wheel_round_trip 31 ⟨31, [0, 0]⟩ [9] 8 rfl).2.2 (by decide)⟩

/-- C8 amended: for a positive safe-integer size the constructor
allocates a zero-initialized byte array of exactly
`Math.floor(size / 30) + 1` bytes (not `⌈size / 30⌉ + 1`); for any other
size it fails with the InvalidArgument error. -/
theorem bitarray_make_floor_alloc (size : Int) :
    (1 ≤ size ∧ size.natAbs ≤ maxSafeInteger →
      BitArray.make size = .ok ⟨size.toNat, List.replicate (size.toNat / 30 + 1) 0⟩) ∧
    (¬ (1 ≤ size ∧ size.natAbs ≤ maxSafeInteger) →
      BitArray.make size = .error invalidSizeMsg) := by
  constructor
  · rintro ⟨h1, h2⟩
    simp only [BitArray.make]
    rw [if_neg (by push_neg; exact ⟨h2, h1⟩)]
  · intro h
    simp only [BitArray.make]
    rw [if_pos (by by_contra hc; push_neg at hc; exact h ⟨hc.2, hc.1⟩)]

/-- C8 witness: size 31 allocates two zero bytes; size 0 is rejected. -/
theorem bitarray_make_floor_alloc_witness :
    ((1 ≤ (31 : Int) ∧ (31 : Int).natAbs ≤ maxSafeInteger) ∧
      ¬ (1 ≤ (0 : Int) ∧ (0 : Int).natAbs ≤ maxSafeInteger)) ∧
    BitArray.make 31 = .ok ⟨(31 : Int).toNat, List.replicate ((31 : Int).toNat / 30 + 1) 0⟩ ∧
    BitArray.make 0 = .error invalidSizeMsg :=
  ⟨⟨⟨by decide, by decide⟩, by decide⟩,
    (bitarray_make_floor_alloc 31).1 ⟨by decide, by decide⟩,
    (bitarray_make_floor_alloc 0).2 (by decide)⟩

/-- C10 amended: for every `n` above `size` with residue coprime to 30,
on an array touched only by public (checked) `set` calls, the fast-path
read returns 0 (either reading past the end of storage or an untouched
in-range byte) while the checked read returns 1 — the two variants
disagree outside the validated domain. -/
theorem fast_vs_checked_above_size (size : Int) (b0 : BitArray) (ms : List Int) (n : Nat)
    (hmk : BitArray.make size = .ok b0) (hgt : size < (n : Int))
    (hco : Nat.gcd n 30 = 1) :
    (applySets b0 ms).get (n : Int) true = 0 ∧
    (applySets b0 ms).get (n : Int) false = 1 := by
  have hcond : ¬ (¬ ((size : Int).natAbs ≤ maxSafeInteger) ∨ size < 1) := by
    intro h
    simp only [BitArray.make, if_pos h] at hmk
    exact Except.noConfusion hmk
  have hb0 : b0 = ⟨size.toNat, List.replicate (size.toNat / 30 + 1) 0⟩ := by
    simp only [BitArray.make, if_neg hcond] at hmk
    exact (Except.ok.inj hmk).symm
  push_neg at hcond
  have hbytes0 : ∀ v ∈ b0.data, v < 256 := by
    rw [hb0]
    intro v hv
    have := List.eq_of_mem_replicate hv
    omega
  obtain ⟨hAsz, hAlen, hAbytes⟩ := applySets_invariants ms b0 hbytes0
  have hsz : b0.size = size.toNat := by rw [hb0]
  have hszc : ((applySets b0 ms).size : Int) = size := by
    rw [hAsz, hsz, Int.toNat_of_nonneg (by omega)]
  have hmask : maskTable.getD (n % 30) 0 ≠ 0 :=
    (mask_coprime (n % 30) (Nat.mod_lt _ (by norm_num))).mpr (by rw [gcd_mod30]; exact hco)
  constructor
  · rw [get_skip_coe]
    rw [applySets_getCore_eq ms b0 n hbytes0 (fun m hm => by
      by_cases hc : m = (n : Int)
      · right
        rw [hc, hsz, Int.toNat_of_nonneg (by omega)]
        exact hgt
      · exact Or.inl hc)]
    rw [hb0, getCore_fresh]
    rw [if_neg hmask]
  · apply get_checked_out
    right; right
    rw [hszc]
    exact hgt

/-- C10 amended witness: size 31, writes [37, 11], read at 37. -/
theorem fast_vs_checked_above_size_witness :
    (BitArray.make 31 = .ok ⟨31, [0, 0]⟩ ∧ (31 : Int) < 37 ∧ Nat.gcd 37 30 = 1) ∧
    (applySets ⟨31, [0, 0]⟩ [37, 11]).get 37 true = 0 ∧
    (applySets ⟨31, [0, 0]⟩ [37, 11]).get 37 false = 1 :=
  ⟨⟨rfl, by decide, by decide⟩,
    (fast_vs_checked_above_size 31 ⟨31, [0, 0]⟩ [37, 11] 37 rfl (by decide) (by decide)).1,
    (fast_vs_checked_above_size 31 ⟨31, [0, 0]⟩ [37, 11] 37 rfl (by decide) (by decide)).2⟩

/-!
## Infrastructure: the sieve loops
-/

/-- The count-up square root search is exact: starting from a lower
bound `k` with enough budget, it lands on the integer square root. -/
theorem jsSqrtGo_spec (n : Nat) : ∀ fuel k, k * k ≤ n → n ≤ k + fuel →
    jsSqrtGo n k fuel * jsSqrtGo n k fuel ≤ n ∧
    n < (jsSqrtGo n k fuel + 1) * (jsSqrtGo n k fuel + 1) := by
  intro fuel
  induction fuel with
  | zero =>
    intro k hk hle
    refine ⟨hk, ?_⟩
    have : k + 1 ≤ (k + 1) * (k + 1) := Nat.le_mul_of_pos_left _ (by omega)
    simp only [jsSqrtGo]
    omega
  | succ fuel ih =>
    intro k hk hle
    simp only [jsSqrtGo]
    by_cases hc : (k + 1) * (k + 1) ≤ n
    · rw [if_pos hc]
      exact ih (k + 1) hc (by omega)
    · rw [if_neg hc]
      exact ⟨hk, by omega⟩

/-- `jsSqrt` agrees with `Nat.sqrt`. -/
theorem jsSqrt_eq_sqrt (n : Nat) : jsSqrt n = Nat.sqrt n := by
  obtain ⟨h1, h2⟩ := jsSqrtGo_spec n n 0 (by omega) (by omega)
  have hle : jsSqrt n ≤ Nat.sqrt n := Nat.le_sqrt.mpr h1
  have hlt : Nat.sqrt n < jsSqrt n + 1 := Nat.sqrt_lt.mpr h2
  omega

/-- The marking loop only marks: it keeps the byte bound, the length and
the size, and if only composite positions were marked before and the
whole arithmetic progression it walks is composite, then afterwards only
composite positions are marked. -/
theorem markMultiplesGo_spec (step range : Nat) :
    ∀ fuel (b : BitArray) (m : Nat),
    (∀ v ∈ b.data, v < 256) →
    (∀ x : Nat, maskTable.getD (x % 30) 0 ≠ 0 → b.getCore x ≠ 0 → ¬ x.Prime) →
    (∀ i : Nat, m + i * step ≤ range → ¬ (m + i * step).Prime) →
    (∀ v ∈ (markMultiplesGo step range b m fuel).data, v < 256) ∧
    (markMultiplesGo step range b m fuel).data.length = b.data.length ∧
    (markMultiplesGo step range b m fuel).size = b.size ∧
    (∀ x : Nat, maskTable.getD (x % 30) 0 ≠ 0 →
      (markMultiplesGo step range b m fuel).getCore x ≠ 0 → ¬ x.Prime) := by
  intro fuel
  induction fuel with
  | zero =>
    intro b m hb hinv _
    exact ⟨hb, rfl, rfl, hinv⟩
  | succ fuel ih =>
    intro b m hb hinv hcomp
    simp only [markMultiplesGo]
    by_cases hc : m ≤ range
    · rw [if_pos hc, set_skip_coe]
      have hmprime : ¬ m.Prime := by
        have := hcomp 0 (by omega)
        simpa using this
      have hinv' : ∀ x : Nat, maskTable.getD (x % 30) 0 ≠ 0 →
          (b.setCore m).getCore x ≠ 0 → ¬ x.Prime := by
        intro x hx hget
        by_cases hxm : x = m
        · rw [hxm]; exact hmprime
        · rw [getCore_setCore_ne b m x (fun hc2 => hxm hc2.symm) hb] at hget
          exact hinv x hx hget
      have hcomp' : ∀ i : Nat, (m + step) + i * step ≤ range →
          ¬ ((m + step) + i * step).Prime := by
        intro i hi
        have heq : (m + step) + i * step = m + (i + 1) * step := by
          rw [Nat.succ_mul]; omega
        rw [heq]
        exact hcomp (i + 1) (by omega)
      obtain ⟨h1, h2, h3, h4⟩ := ih (b.setCore m) (m + step) (setCore_bytes b m hb) hinv' hcomp'
      exact ⟨h1, by rw [h2, setCore_length], by rw [h3, setCore_size], h4⟩
    · rw [if_neg hc]
      exact ⟨hb, rfl, rfl, hinv⟩

/-- An odd candidate at least 7 whose fast read reports marked is not
prime: either its residue has no mask (then 3 or 5 divides it) or it was
marked, and only composites get marked. -/
theorem skipped_candidate_not_prime (b : BitArray) (c : Nat)
    (h7 : 7 ≤ c) (hodd : c % 2 = 1)
    (hinv : ∀ x : Nat, maskTable.getD (x % 30) 0 ≠ 0 → b.getCore x ≠ 0 → ¬ x.Prime)
    (hget : b.get (c : Int) true ≠ 0) : ¬ c.Prime := by
  rw [get_skip_coe] at hget
  by_cases hm : maskTable.getD (c % 30) 0 = 0
  · intro hp
    have hr2 : (c % 30) % 2 = 1 := by omega
    rcases mask_zero_odd_div (c % 30) (Nat.mod_lt _ (by norm_num)) hr2 hm with h3 | h5
    · have h3c : 3 ∣ c := by omega
      rcases Nat.Prime.eq_one_or_self_of_dvd hp 3 h3c with h | h <;> omega
    · have h5c : 5 ∣ c := by omega
      rcases Nat.Prime.eq_one_or_self_of_dvd hp 5 h5c with h | h <;> omega
  · exact hinv c hm hget

/-- An even number at least 8 is not prime. -/
theorem even_ge8_not_prime (p : Nat) (h : 8 ≤ p) (he : p % 2 = 0) : ¬ p.Prime := by
  intro hp
  have := (Nat.Prime.even_iff hp).1 (Nat.even_iff.2 he)
  omega

/-- Appending a strict upper bound keeps a list strictly sorted. -/
theorem sorted_append_singleton (l : List Nat) (c : Nat)
    (h : l.Sorted (· < ·)) (hlt : ∀ x ∈ l, x < c) : (l ++ [c]).Sorted (· < ·) :=
  List.pairwise_append.mpr ⟨h, List.pairwise_singleton _ _, by
    intro a ha b hb
    rw [List.mem_singleton] at hb
    rw [hb]
    exact hlt a ha⟩

/-- Invariant lemma for the first sieve loop: with enough budget, the
loop keeps the bit-array invariants, extends the accumulator in strictly
ascending order without losing the [2, 3, 5] prefix, collects every
prime below the final loop variable, and ends with the loop variable odd,
at least 7, and above `range_sqrt`. -/
theorem sieveLoop1Go_spec (range_sqrt range : Nat) (hrs : range_sqrt ≤ range) :
    ∀ fuel (acc : List Nat) (b : BitArray) (candidate : Nat),
    range_sqrt + 1 - candidate ≤ fuel →
    candidate % 2 = 1 → 7 ≤ candidate →
    (∀ v ∈ b.data, v < 256) →
    (∀ x : Nat, maskTable.getD (x % 30) 0 ≠ 0 → b.getCore x ≠ 0 → ¬ x.Prime) →
    acc.Sorted (· < ·) →
    (∀ x ∈ acc, x < candidate) →
    (∀ p, Nat.Prime p → p < candidate → p ≤ range → p ∈ acc) →
    [2, 3, 5] <+: acc →
    (∀ x ∈ acc, x ≤ range) →
    (∀ v ∈ (sieveLoop1Go range_sqrt range acc b candidate fuel).2.1.data, v < 256) ∧
    (∀ x : Nat, maskTable.getD (x % 30) 0 ≠ 0 →
      (sieveLoop1Go range_sqrt range acc b candidate fuel).2.1.getCore x ≠ 0 → ¬ x.Prime) ∧
    (sieveLoop1Go range_sqrt range acc b candidate fuel).1.Sorted (· < ·) ∧
    (∀ x ∈ (sieveLoop1Go range_sqrt range acc b candidate fuel).1,
      x < (sieveLoop1Go range_sqrt range acc b candidate fuel).2.2) ∧
    (∀ p, Nat.Prime p → p < (sieveLoop1Go range_sqrt range acc b candidate fuel).2.2 →
      p ≤ range → p ∈ (sieveLoop1Go range_sqrt range acc b candidate fuel).1) ∧
    [2, 3, 5] <+: (sieveLoop1Go range_sqrt range acc b candidate fuel).1 ∧
    (∀ x ∈ (sieveLoop1Go range_sqrt range acc b candidate fuel).1, x ≤ range) ∧
    range_sqrt < (sieveLoop1Go range_sqrt range acc b candidate fuel).2.2 ∧
    (sieveLoop1Go range_sqrt range acc b candidate fuel).2.2 % 2 = 1 ∧
    7 ≤ (sieveLoop1Go range_sqrt range acc b candidate fuel).2.2 := by
  intro fuel
  induction fuel with
  | zero =>
    intro acc b candidate hfuel hodd h7 hb hinv hsort hlt hcompl hpre hle
    simp only [sieveLoop1Go]
    exact ⟨hb, hinv, hsort, hlt, hcompl, hpre, hle, (by omega : range_sqrt < candidate), hodd, h7⟩
  | succ fuel ih =>
    intro acc b candidate hfuel hodd h7 hb hinv hsort hlt hcompl hpre hle
    simp only [sieveLoop1Go]
    by_cases hc : candidate ≤ range_sqrt
    · rw [if_pos hc]
      by_cases hget : b.get (candidate : Int) true = 0
      · rw [if_pos hget]
        have hcomp : ∀ i : Nat,
            (candidate + candidate * 2) + i * (candidate * 2) ≤ range →
            ¬ ((candidate + candidate * 2) + i * (candidate * 2)).Prime := by
          intro i _
          have heq : candidate + candidate * 2 + i * (candidate * 2)
              = candidate * (3 + 2 * i) := by ring
          rw [heq]
          exact Nat.not_prime_mul (by omega) (by omega)
        obtain ⟨hb2, hl2, hs2, hinv2⟩ :=
          markMultiplesGo_spec (candidate * 2) range (range + 1 - (candidate + candidate * 2))
            b (candidate + candidate * 2) hb hinv hcomp
        apply ih (acc ++ [candidate])
          (markMultiples b (candidate * 2) (candidate + candidate * 2) range)
          (candidate + 2) (by omega) (by omega) (by omega) hb2 hinv2
          (sorted_append_singleton acc candidate hsort hlt)
        · intro x hx
          rcases List.mem_append.mp hx with hx | hx
          · have := hlt x hx; omega
          · rw [List.mem_singleton] at hx; omega
        · intro p hp hplt hple
          rcases Nat.lt_or_ge p candidate with h | h
          · exact List.mem_append_left _ (hcompl p hp h hple)
          · rcases Nat.lt_or_ge p (candidate + 1) with h2 | h2
            · have : p = candidate := by omega
              rw [this]
              exact List.mem_append_right _ (List.mem_singleton_self _)
            · have : p = candidate + 1 := by omega
              exact absurd hp (even_ge8_not_prime p (by omega) (by omega))
        · exact hpre.trans (List.prefix_append acc [candidate])
        · intro x hx
          rcases List.mem_append.mp hx with hx | hx
          · exact hle x hx
          · rw [List.mem_singleton] at hx; omega
      · rw [if_neg hget]
        apply ih acc b (candidate + 2) (by omega) (by omega) (by omega) hb hinv hsort
        · intro x hx; have := hlt x hx; omega
        · intro p hp hplt hple
          rcases Nat.lt_or_ge p candidate with h | h
          · exact hcompl p hp h hple
          · rcases Nat.lt_or_ge p (candidate + 1) with h2 | h2
            · have hpc : p = candidate := by omega
              exact absurd hp (by
                rw [hpc]
                exact skipped_candidate_not_prime b candidate h7 hodd hinv hget)
            · have : p = candidate + 1 := by omega
              exact absurd hp (even_ge8_not_prime p (by omega) (by omega))
        · exact hpre
        · exact hle
    · rw [if_neg hc]
      exact ⟨hb, hinv, hsort, hlt, hcompl, hpre, hle, (by omega : range_sqrt < candidate), hodd, h7⟩

/-- Invariant lemma for the second sieve loop: with enough budget it
returns a strictly sorted list with the [2, 3, 5] prefix, all entries at
most `range`, containing every prime up to `range`. -/
theorem sieveLoop2Go_spec (range : Nat) :
    ∀ fuel (acc : List Nat) (b : BitArray) (candidate : Nat),
    range + 1 - candidate ≤ fuel →
    candidate % 2 = 1 → 7 ≤ candidate →
    (∀ x : Nat, maskTable.getD (x % 30) 0 ≠ 0 → b.getCore x ≠ 0 → ¬ x.Prime) →
    acc.Sorted (· < ·) →
    (∀ x ∈ acc, x < candidate) →
    (∀ p, Nat.Prime p → p < candidate → p ≤ range → p ∈ acc) →
    [2, 3, 5] <+: acc →
    (∀ x ∈ acc, x ≤ range) →
    (sieveLoop2Go range acc b candidate fuel).Sorted (· < ·) ∧
    (∀ p, Nat.Prime p → p ≤ range → p ∈ sieveLoop2Go range acc b candidate fuel) ∧
    [2, 3, 5] <+: sieveLoop2Go range acc b candidate fuel ∧
    (∀ x ∈ sieveLoop2Go range acc b candidate fuel, x ≤ range) := by
  intro fuel
  induction fuel with
  | zero =>
    intro acc b candidate hfuel hodd h7 hinv hsort hlt hcompl hpre hle
    simp only [sieveLoop2Go]
    exact ⟨hsort, fun p hp hple => hcompl p hp (by omega : p < candidate) hple, hpre, hle⟩
  | succ fuel ih =>
    intro acc b candidate hfuel hodd h7 hinv hsort hlt hcompl hpre hle
    simp only [sieveLoop2Go]
    by_cases hc : candidate ≤ range
    · rw [if_pos hc]
      by_cases hget : b.get (candidate : Int) true = 0
      · rw [if_pos hget]
        apply ih (acc ++ [candidate]) b (candidate + 2) (by omega) (by omega) (by omega) hinv
          (sorted_append_singleton acc candidate hsort hlt)
        · intro x hx
          rcases List.mem_append.mp hx with hx | hx
          · have := hlt x hx; omega
          · rw [List.mem_singleton] at hx; omega
        · intro p hp hplt hple
          rcases Nat.lt_or_ge p candidate with h | h
          · exact List.mem_append_left _ (hcompl p hp h hple)
          · rcases Nat.lt_or_ge p (candidate + 1) with h2 | h2
            · have : p = candidate := by omega
              rw [this]
              exact List.mem_append_right _ (List.mem_singleton_self _)
            · have : p = candidate + 1 := by omega
              exact absurd hp (even_ge8_not_prime p (by omega) (by omega))
        · exact hpre.trans (List.prefix_append acc [candidate])
        · intro x hx
          rcases List.mem_append.mp hx with hx | hx
          · exact hle x hx
          · rw [List.mem_singleton] at hx; omega
      · rw [if_neg hget]
        apply ih acc b (candidate + 2) (by omega) (by omega) (by omega) hinv hsort
        · intro x hx; have := hlt x hx; omega
        · intro p hp hplt hple
          rcases Nat.lt_or_ge p candidate with h | h
          · exact hcompl p hp h hple
          · rcases Nat.lt_or_ge p (candidate + 1) with h2 | h2
            · have hpc : p = candidate := by omega
              exact absurd hp (by
                rw [hpc]
                exact skipped_candidate_not_prime b candidate h7 hodd hinv hget)
            · have : p = candidate + 1 := by omega
              exact absurd hp (even_ge8_not_prime p (by omega) (by omega))
        · exact hpre
        · exact hle
    · rw [if_neg hc]
      exact ⟨hsort, fun p hp hple => hcompl p hp (by omega : p < candidate) hple, hpre, hle⟩

/-- The sieve body run with any effective bound in `[7, MAX_SAFE]`
succeeds and returns a strictly sorted list, starting 2, 3, 5, of
numbers at most `range`, containing every prime up to `range`. -/
theorem sieveCore_spec (range : Nat) (h7 : 7 ≤ range) (hsafe : range ≤ maxSafeInteger) :
    ∃ l, sieveCore range = .ok l ∧ l.Sorted (· < ·) ∧ [2, 3, 5] <+: l ∧
      (∀ x ∈ l, x ≤ range) ∧ ∀ p, Nat.Prime p → p ≤ range → p ∈ l := by
  have hmake : BitArray.make (range : Int) =
      .ok ⟨range, List.replicate (range / 30 + 1) 0⟩ := by
    simp only [BitArray.make]
    rw [if_neg (by push_neg; exact ⟨by simpa using hsafe, by omega⟩)]
    simp
  have hpre : ((if 2 ≤ range then [2] else []) ++ (if 3 ≤ range then [3] else [])
      ++ (if 5 ≤ range then [5] else [])) = ([2, 3, 5] : List Nat) := by
    rw [if_pos (by omega), if_pos (by omega), if_pos (by omega)]
    rfl
  have hrun : sieveCore range = Except.ok
      (sieveLoop2
        (sieveLoop1 [2, 3, 5] ⟨range, List.replicate (range / 30 + 1) 0⟩ 7 (jsSqrt range) range).1
        (sieveLoop1 [2, 3, 5] ⟨range, List.replicate (range / 30 + 1) 0⟩ 7 (jsSqrt range) range).2.1
        (sieveLoop1 [2, 3, 5] ⟨range, List.replicate (range / 30 + 1) 0⟩ 7 (jsSqrt range) range).2.2
        range) := by
    simp only [sieveCore, hpre, hmake]
    rfl
  have hrs : jsSqrt range ≤ range := by
    rw [jsSqrt_eq_sqrt]
    exact Nat.sqrt_le_self range
  have hbytes0 : ∀ v ∈ (List.replicate (range / 30 + 1) (0 : Nat)), v < 256 := by
    intro v hv
    have := List.eq_of_mem_replicate hv
    omega
  have hinv0 : ∀ x : Nat, maskTable.getD (x % 30) 0 ≠ 0 →
      (BitArray.mk range (List.replicate (range / 30 + 1) 0)).getCore x ≠ 0 → ¬ x.Prime := by
    intro x hx hget
    rw [getCore_fresh, if_neg hx] at hget
    exact absurd rfl hget
  obtain ⟨l1bytes, l1inv, l1sort, l1lt, l1compl, l1pre, l1le, l1gt, l1odd, l17⟩ :=
    sieveLoop1Go_spec (jsSqrt range) range hrs (jsSqrt range + 1 - 7) [2, 3, 5]
      ⟨range, List.replicate (range / 30 + 1) 0⟩ 7 (by omega) (by omega) (by omega)
      hbytes0 hinv0 (by decide) (by decide)
      (fun p hp hplt _ => small_primes p hplt hp) (List.prefix_refl _)
      (by intro x hx; simp at hx; rcases hx with rfl | rfl | rfl <;> omega)
  obtain ⟨l2sort, l2compl, l2pre, l2le⟩ :=
    sieveLoop2Go_spec range
      (range + 1 -
        (sieveLoop1 [2, 3, 5] ⟨range, List.replicate (range / 30 + 1) 0⟩ 7 (jsSqrt range) range).2.2)
      (sieveLoop1 [2, 3, 5] ⟨range, List.replicate (range / 30 + 1) 0⟩ 7 (jsSqrt range) range).1
      (sieveLoop1 [2, 3, 5] ⟨range, List.replicate (range / 30 + 1) 0⟩ 7 (jsSqrt range) range).2.1
      (sieveLoop1 [2, 3, 5] ⟨range, List.replicate (range / 30 + 1) 0⟩ 7 (jsSqrt range) range).2.2
      (by omega) l1odd l17 l1inv l1sort l1lt l1compl l1pre l1le
  exact ⟨_, hrun, l2sort, l2pre, l2le, l2compl⟩

/-- The low set the process actually builds
(`#generateLowSet(Number.MAX_SAFE_INTEGER)`): strictly sorted, starts
2, 3, 5, bounded by `⌊√MAX_SAFE⌋`, and contains every prime up to
`⌊√MAX_SAFE⌋`. -/
theorem lowSetList_spec :
    lowSetList.Sorted (· < ·) ∧ [2, 3, 5] <+: lowSetList ∧
    (∀ x ∈ lowSetList, x ≤ Nat.sqrt maxSafeInteger) ∧
    ∀ p, Nat.Prime p → p ≤ Nat.sqrt maxSafeInteger → p ∈ lowSetList := by
  have h7 : 7 ≤ Nat.sqrt maxSafeInteger :=
    Nat.le_sqrt.mpr (by norm_num [maxSafeInteger])
  obtain ⟨l, hok, hsort, hpre, hle, hcompl⟩ :=
    sieveCore_spec (Nat.sqrt maxSafeInteger) h7 (Nat.sqrt_le_self _)
  have hgen : generateLowSet maxSafeInteger = .ok l := by
    show sieveCore (jsSqrt maxSafeInteger) = .ok l
    rw [jsSqrt_eq_sqrt]
    exact hok
  have hlist : lowSetList = l := by
    have hdelta : lowSetList = (generateLowSet maxSafeInteger).toOption.getD [] := rfl
    rw [hdelta, hgen]
    rfl
  rw [hlist]
  exact ⟨hsort, hpre, hle, hcompl⟩

/-- The last element of a list with the prefix [2, 3, 5] belongs to the
list. -/
theorem getLastD_mem (l : List Nat) (h : l ≠ []) : l.getLastD 0 ∈ l := by
  induction l with
  | nil => exact absurd rfl h
  | cons a t ih =>
    cases t with
    | nil => simp
    | cons b t2 =>
      rw [show (a :: b :: t2).getLastD 0 = (b :: t2).getLastD 0 by
        simp [List.getLastD_cons]]
      exact List.mem_cons_of_mem a (ih (by simp))

/-- In a strictly sorted list every element is at most the last one. -/
theorem sorted_mem_le_getLastD (l : List Nat) (hs : l.Sorted (· < ·)) :
    ∀ x ∈ l, x ≤ l.getLastD 0 := by
  induction l with
  | nil => intro x hx; exact absurd hx (List.not_mem_nil x)
  | cons a t ih =>
    intro x hx
    have hpc := List.pairwise_cons.mp hs
    cases t with
    | nil =>
      rw [List.mem_singleton] at hx
      rw [hx]
      rfl
    | cons b t2 =>
      rw [show (a :: b :: t2).getLastD 0 = (b :: t2).getLastD 0 by
        simp [List.getLastD_cons]]
      rcases List.mem_cons.mp hx with rfl | hx2
      · have hb := ih hpc.2 b (List.mem_cons_self b t2)
        have hab : x < b := hpc.1 b (List.mem_cons_self b t2)
        omega
      · exact ih hpc.2 x hx2

/-- C5: once the low-set build completes, the sequence is strictly
ascending (hence without duplicates) and its first three elements are
2, 3, 5.  In the source the only writes to `#low_set` are the pushes
inside `#generateLowSet`, which the constructor invokes exactly once, so
the final value proved about here is never mutated afterward. -/
theorem low_set_sorted_first_three :
    lowSetList.Sorted (· < ·) ∧ lowSetList.take 3 = [2, 3, 5] := by
  obtain ⟨hsort, hpre, _, _⟩ := lowSetList_spec
  refine ⟨hsort, ?_⟩
  have h := List.prefix_iff_eq_take.mp hpre
  simpa using h.symm

/-- C3 (counterexample): the square of the greatest cached prime is
strictly below `MAX_RANGE`: every cached value is at most
`⌊√MAX_SAFE⌋ = 94906265` and `94906265 ^ 2 < MAX_SAFE`. -/
theorem lowSetLast_sq_lt_maxRange : lowSetLast ^ 2 < maxSafeInteger := by
  obtain ⟨hsort, hpre, hle, _⟩ := lowSetList_spec
  have hne : lowSetList ≠ [] := by
    obtain ⟨t, ht⟩ := hpre
    intro hc
    rw [hc] at ht
    exact absurd ht (by simp)
  have hlast_le : lowSetLast ≤ Nat.sqrt maxSafeInteger := hle _ (getLastD_mem _ hne)
  have main : ∀ a : Nat, a ≤ Nat.sqrt maxSafeInteger → a ^ 2 < maxSafeInteger := by
    intro a ha
    have hsq : Nat.sqrt maxSafeInteger ≤ 94906265 := by
      have h2 : Nat.sqrt maxSafeInteger < 94906266 :=
        Nat.sqrt_lt.mpr (by norm_num [maxSafeInteger])
      omega
    have hpow : a ^ 2 ≤ 94906265 ^ 2 := Nat.pow_le_pow_left (by omega) 2
    have hlt : (94906265 : Nat) ^ 2 < maxSafeInteger := by norm_num [maxSafeInteger]
    omega
  exact main lowSetLast hlast_le

/-- C3 amended: `low_set_last ^ 2 < MAX_RANGE` (the claimed inequality is
reversed), yet the division test stays correct: every composite
`n ≤ MAX_RANGE` has a prime factor at most `⌊√MAX_RANGE⌋`, and the low
set contains all primes up to `⌊√MAX_RANGE⌋`, so some cached prime at
most `low_set_last` divides `n`. -/
theorem low_set_certifies_composites (n : Nat) (hle : n ≤ maxSafeInteger) (h2 : 2 ≤ n)
    (hnp : ¬ n.Prime) :
    ∃ p, p.Prime ∧ p ∣ n ∧ p ∈ lowSetList ∧ p ≤ lowSetLast := by
  obtain ⟨hsort, _, _, hcompl⟩ := lowSetList_spec
  have hp : (n.minFac).Prime := Nat.minFac_prime (by omega)
  have hsq : n.minFac ^ 2 ≤ n := Nat.minFac_sq_le_self (by omega) hnp
  have hle2 : n.minFac ≤ Nat.sqrt maxSafeInteger := by
    apply Nat.le_sqrt.mpr
    rw [pow_two] at hsq
    omega
  have hmem : n.minFac ∈ lowSetList := hcompl _ hp hle2
  exact ⟨n.minFac, hp, Nat.minFac_dvd n, hmem,
    sorted_mem_le_getLastD lowSetList hsort _ hmem⟩

/-- C3 witness: the composite 4 is certified by a cached prime divisor. -/
theorem low_set_certifies_composites_witness :
    (4 ≤ maxSafeInteger ∧ 2 ≤ 4 ∧ ¬ Nat.Prime 4) ∧
    ∃ p, p.Prime ∧ p ∣ 4 ∧ p ∈ lowSetList ∧ p ≤ lowSetLast :=
  ⟨⟨by decide, by decide, by decide⟩,
    low_set_certifies_composites 4 (by decide) (by decide) (by decide)⟩
